import Mathlib

/-!
Verification of the auto-short-video repository's specification against a
shallow embedding of its Python sources.

Embedded components:
* `main.py` `_concat_trim_to` — the audio concatenation / duration-budget
  trimming algorithm ("Timeline Packer").
* `audio_fx.py` `enhance` — filter-chain fallback logic.
* `dialogue.py` `make_dialogue` — script generation glue (parsing, padding,
  per-line fallback), with the upstream chat-completion call modelled as an
  oracle parameter.
* `tts_openai.py` `_clean_for_tts` / `_apply_style` — TTS text pre-sanitizers.

Machine integers of the source are Python arbitrary-precision ints, embedded
as `ℤ` (durations coming from `pydub` are non-negative, so the top-level
wrappers take `ℕ` inputs and cast).  Python strings are embedded as
`List Char` / `String`; all Python `str` / `re` operations used by the code
are re-implemented explicitly below.
-/

/-! Timeline packer (`main.py`, `_concat_trim_to`).

The Python function receives a list of audio clips (we keep just their
durations in milliseconds, `len(seg)` of pydub being a non-negative int),
`max_sec` (the budget, converted by the code to `max_ms = int(max_sec*1000)`;
we take the millisecond budget directly) and `gap_ms`.  The audio track it
assembles is modelled as the list of emitted segments: either the first
`len` milliseconds of the input clip with index `idx`, or a stretch of
silence. -/

/-- A segment of the assembled output track: either (a prefix of) an input
clip, or inserted silence. -/
inductive Seg where
  | clip (idx : ℕ) (len : ℤ)
  | silence (len : ℤ)
deriving DecidableEq

/-- Duration in milliseconds of an output segment. -/
def segLen : Seg → ℤ
  | .clip _ len => len
  | .silence len => len

/-- Total duration (ms) of an assembled track. -/
def totalLen : List Seg → ℤ
  | [] => 0
  | s :: rest => segLen s + totalLen rest

/-- Number of (possibly truncated) input clips appearing in the track. -/
def clipCount : List Seg → ℕ
  | [] => 0
  | .clip _ _ :: rest => clipCount rest + 1
  | .silence _ :: rest => clipCount rest

/-- The trailing gap of the current clip: `gap_ms if idx < len(mp_paths)-1
else 0` in the source, i.e. the gap is inserted after every clip except the
last one. -/
def gapOf (gap : ℤ) (rest : List ℤ) : ℤ :=
  if rest.isEmpty then 0 else gap

/-- The loop body of `_concat_trim_to` (main.py lines 282–311).  State:
the durations still to process, `elapsed`, and the original index of the
current clip.  Returns the emitted segments and the list of realized
durations (in ms; the source divides by 1000.0 when recording them). -/
def packAux (gap maxMs : ℤ) : List ℤ → ℤ → ℕ → List Seg × List ℤ
  | [], _, _ => ([], [])
  | d :: rest, elapsed, idx =>
    let extra := gapOf gap rest
    let need := d + extra
    let remain := maxMs - elapsed
    if remain ≤ 0 then ([], [])
    else if need ≤ remain then
      let tail := packAux gap maxMs rest (elapsed + d + extra) (idx + 1)
      (Seg.clip idx d :: ((if extra ≠ 0 then [Seg.silence extra] else []) ++ tail.1),
        (d + extra) :: tail.2)
    else if remain ≤ d then
      ([Seg.clip idx remain], [remain])
    else
      (Seg.clip idx d :: (if 0 < remain - d then [Seg.silence (remain - d)] else []),
        [d + (remain - d)])

/-- The function `_concat_trim_to(mp_paths, max_sec, gap_ms)` with clip durations
`durs` (ms), budget `maxMs = int(max_sec*1000)` and gap `gapMs`.  Returns
the assembled track and the realized-duration list in milliseconds. -/
def _concat_trim_to (durs : List ℕ) (maxMs : ℕ) (gapMs : ℕ) : List Seg × List ℤ :=
  packAux (gapMs : ℤ) (maxMs : ℤ) (durs.map (fun (d : ℕ) => (d : ℤ))) 0 0

/-- The realized-duration list actually returned by the source:
`(... )/1000.0` seconds per emitted clip, as exact rationals. -/
def realizedDurs (durs : List ℕ) (maxMs : ℕ) (gapMs : ℕ) : List ℚ :=
  (_concat_trim_to durs maxMs gapMs).2.map (fun (d : ℤ) => (d : ℚ) / 1000)

/-- Natural (untrimmed) total duration of the timeline:
`sum(d_i) + (N-1)*g`, the value the spec compares the budget against. -/
def natTotalN (durs : List ℕ) (g : ℕ) : ℕ :=
  durs.sum + (durs.length - 1) * g

/-- Same quantity over `ℤ` clip lists, in the recursive form matching the
per-clip gap (`gapOf`). -/
def natTotalZ (gap : ℤ) : List ℤ → ℤ
  | [] => 0
  | d :: rest => d + gapOf gap rest + natTotalZ gap rest

theorem totalLen_append (a b : List Seg) : totalLen (a ++ b) = totalLen a + totalLen b := by
  induction a with
  | nil => simp [totalLen]
  | cons s rest ih => simp [totalLen, ih]; ring

theorem clipCount_append (a b : List Seg) : clipCount (a ++ b) = clipCount a + clipCount b := by
  induction a with
  | nil => simp [clipCount]
  | cons s rest ih =>
    cases s with
    | clip i l =>
      simp [clipCount, ih]
      omega
    | silence l =>
      simp [clipCount, ih]

theorem natTotalZ_nonneg (gap : ℤ) (hg : 0 ≤ gap) :
    ∀ ds : List ℤ, (∀ d ∈ ds, 0 ≤ d) → 0 ≤ natTotalZ gap ds := by
  intro ds
  induction ds with
  | nil => intro _; simp [natTotalZ]
  | cons d rest ih =>
    intro h
    have hd : 0 ≤ d := h d (by simp)
    have hr := ih (fun x hx => h x (by simp [hx]))
    have hgap : 0 ≤ gapOf gap rest := by
      unfold gapOf; split <;> omega
    simp only [natTotalZ]
    omega

theorem natTotalZ_cast (g : ℕ) :
    ∀ ds : List ℕ, natTotalZ (g : ℤ) (ds.map (fun (d : ℕ) => (d : ℤ))) = (natTotalN ds g : ℤ) := by
  intro ds
  induction ds with
  | nil => simp [natTotalZ, natTotalN]
  | cons d rest ih =>
    cases rest with
    | nil => simp [natTotalZ, natTotalN, gapOf]
    | cons r rs =>
      have h1 : natTotalZ (g : ℤ) ((d :: r :: rs).map (fun (d : ℕ) => (d : ℤ)))
          = (d : ℤ) + g + natTotalZ (g : ℤ) ((r :: rs).map (fun (d : ℕ) => (d : ℤ))) := by
        simp [natTotalZ, gapOf]
      rw [h1, ih]
      have h2 : natTotalN (d :: r :: rs) g = d + g + natTotalN (r :: rs) g := by
        simp only [natTotalN, List.sum_cons, List.length_cons, Nat.add_sub_cancel]
        ring
      rw [h2]
      push_cast
      ring

theorem gapOf_nonneg (gap : ℤ) (hg : 0 ≤ gap) (rest : List ℤ) : 0 ≤ gapOf gap rest := by
  unfold gapOf; split
  · exact le_refl 0
  · exact hg

/-- Core invariant of the packing loop: as long as `elapsed ≤ maxMs` on
entry, the emitted track has total duration
`min (maxMs - elapsed) (natural total of the remaining clips)`. -/
theorem packAux_total (gap maxMs : ℤ) (hg : 0 ≤ gap) :
    ∀ (ds : List ℤ) (elapsed : ℤ) (idx : ℕ), (∀ d ∈ ds, 0 ≤ d) → elapsed ≤ maxMs →
      totalLen (packAux gap maxMs ds elapsed idx).1
        = min (maxMs - elapsed) (natTotalZ gap ds) := by
  intro ds
  induction ds with
  | nil =>
    intro elapsed idx _ he
    simp only [packAux, totalLen, natTotalZ]
    omega
  | cons d rest ih =>
    intro elapsed idx hds he
    have hd : 0 ≤ d := hds d (by simp)
    have hrest : ∀ x ∈ rest, 0 ≤ x := fun x hx => hds x (by simp [hx])
    have hgap : 0 ≤ gapOf gap rest := gapOf_nonneg gap hg rest
    have hT : 0 ≤ natTotalZ gap rest := natTotalZ_nonneg gap hg rest hrest
    simp only [packAux, natTotalZ]
    split
    · rename_i h1
      simp only [totalLen]
      omega
    · rename_i h1
      split
      · rename_i h2
        by_cases hg0 : gapOf gap rest = 0
        · have ihh := ih (elapsed + d + 0) (idx + 1) hrest (by omega)
          simp only [hg0, ne_eq, not_true_eq_false, if_false, List.nil_append,
            totalLen, segLen, ihh]
          omega
        · have ihh := ih (elapsed + d + gapOf gap rest) (idx + 1) hrest (by omega)
          simp only [ne_eq, hg0, not_false_eq_true, if_true, List.cons_append,
            List.nil_append, totalLen, segLen, ihh]
          omega
      · rename_i h2
        split
        · rename_i h3
          simp only [totalLen, segLen]
          omega
        · rename_i h3
          have hpos : 0 < maxMs - elapsed - d := by omega
          simp only [hpos, if_true, totalLen, segLen]
          omega

/-- The realized-duration entries (ms) always sum to the emitted track's
total duration. -/
theorem packAux_sum (gap maxMs : ℤ) :
    ∀ (ds : List ℤ) (elapsed : ℤ) (idx : ℕ),
      (packAux gap maxMs ds elapsed idx).2.sum
        = totalLen (packAux gap maxMs ds elapsed idx).1 := by
  intro ds
  induction ds with
  | nil =>
    intro elapsed idx
    simp [packAux, totalLen]
  | cons d rest ih =>
    intro elapsed idx
    simp only [packAux]
    split
    · simp [totalLen]
    · rename_i h1
      split
      · rename_i h2
        by_cases hg0 : gapOf gap rest = 0
        · have ihh := ih (elapsed + d + 0) (idx + 1)
          simp only [hg0, ne_eq, not_true_eq_false, if_false, List.nil_append,
            List.sum_cons, totalLen, segLen, ihh]
          omega
        · have ihh := ih (elapsed + d + gapOf gap rest) (idx + 1)
          simp only [ne_eq, hg0, not_false_eq_true, if_true, List.cons_append,
            List.nil_append, List.sum_cons, totalLen, segLen, ihh]
          omega
      · rename_i h2
        split
        · simp [totalLen, segLen]
        · rename_i h3
          have hpos : 0 < maxMs - elapsed - d := by omega
          simp only [hpos, if_true, totalLen, segLen, List.sum_cons, List.sum_nil]
          omega

/-- There is exactly one realized-duration entry per (possibly truncated)
clip emitted into the track. -/
theorem packAux_len (gap maxMs : ℤ) :
    ∀ (ds : List ℤ) (elapsed : ℤ) (idx : ℕ),
      (packAux gap maxMs ds elapsed idx).2.length
        = clipCount (packAux gap maxMs ds elapsed idx).1 := by
  intro ds
  induction ds with
  | nil =>
    intro elapsed idx
    simp [packAux, clipCount]
  | cons d rest ih =>
    intro elapsed idx
    simp only [packAux]
    split
    · simp [clipCount]
    · rename_i h1
      split
      · rename_i h2
        by_cases hg0 : gapOf gap rest = 0
        · have ihh := ih (elapsed + d + 0) (idx + 1)
          simp only [hg0, ne_eq, not_true_eq_false, if_false, List.nil_append,
            List.length_cons, clipCount, ihh]
        · have ihh := ih (elapsed + d + gapOf gap rest) (idx + 1)
          simp only [ne_eq, hg0, not_false_eq_true, if_true, List.cons_append,
            List.nil_append, List.length_cons, clipCount, ihh]
      · rename_i h2
        split
        · simp [clipCount]
        · rename_i h3
          by_cases hpos : (0 : ℤ) < maxMs - elapsed - d
          · simp [hpos, clipCount]
          · simp [hpos, clipCount]

/-- The packer never emits more realized-duration entries than input clips. -/
theorem packAux_len_le (gap maxMs : ℤ) :
    ∀ (ds : List ℤ) (elapsed : ℤ) (idx : ℕ),
      (packAux gap maxMs ds elapsed idx).2.length ≤ ds.length := by
  intro ds
  induction ds with
  | nil => intro elapsed idx; simp [packAux]
  | cons d rest ih =>
    intro elapsed idx
    simp only [packAux]
    split
    · simp
    · split
      · rename_i h2
        have ihh := ih (elapsed + d + gapOf gap rest) (idx + 1)
        simp only [List.length_cons]
        omega
      · split
        · simp
        · simp

/-- The fully-included timeline: every clip in full, every inter-clip gap
in full (no gap after the last clip). -/
def fullSegs (gap : ℤ) : ℕ → List ℤ → List Seg
  | _, [] => []
  | idx, d :: rest =>
    Seg.clip idx d ::
      ((if gapOf gap rest ≠ 0 then [Seg.silence (gapOf gap rest)] else [])
        ++ fullSegs gap (idx + 1) rest)

/-- Realized durations when every clip fits: `d_i + g` for all but the last
clip, `d_N` for the last. -/
def fullDurs (gap : ℤ) : List ℤ → List ℤ
  | [] => []
  | d :: rest => (d + gapOf gap rest) :: fullDurs gap rest

theorem fullDurs_length (gap : ℤ) : ∀ ds : List ℤ, (fullDurs gap ds).length = ds.length := by
  intro ds
  induction ds with
  | nil => rfl
  | cons d rest ih => simp [fullDurs, ih]

theorem natTotalZ_ge_last (gap : ℤ) (hg : 0 ≤ gap) :
    ∀ ds : List ℤ, (∀ d ∈ ds, 0 ≤ d) → ∀ dN, ds.getLast? = some dN → dN ≤ natTotalZ gap ds := by
  intro ds
  induction ds with
  | nil => intro _ dN h; simp at h
  | cons d rest ih =>
    intro hds dN hL
    have hd : 0 ≤ d := hds d (by simp)
    have hrest : ∀ x ∈ rest, 0 ≤ x := fun x hx => hds x (by simp [hx])
    have hgap : 0 ≤ gapOf gap rest := gapOf_nonneg gap hg rest
    cases rest with
    | nil =>
      simp only [List.getLast?_singleton, Option.some_inj] at hL
      subst hL
      simp [natTotalZ, gapOf]
    | cons r rs =>
      rw [List.getLast?_cons_cons] at hL
      have h1 := ih hrest dN hL
      have hnt : natTotalZ gap (d :: r :: rs)
          = d + gapOf gap (r :: rs) + natTotalZ gap (r :: rs) := rfl
      omega

/-- When the budget strictly exceeds the natural total — or meets it and the
final clip has positive duration — the loop emits every clip and gap in
full. -/
theorem packAux_full (gap maxMs : ℤ) (hg : 0 ≤ gap) :
    ∀ (ds : List ℤ) (elapsed : ℤ) (idx : ℕ), (∀ d ∈ ds, 0 ≤ d) → elapsed ≤ maxMs →
      (natTotalZ gap ds < maxMs - elapsed
        ∨ (natTotalZ gap ds ≤ maxMs - elapsed ∧ ∀ dN, ds.getLast? = some dN → 0 < dN)) →
      packAux gap maxMs ds elapsed idx = (fullSegs gap idx ds, fullDurs gap ds) := by
  intro ds
  induction ds with
  | nil => intro elapsed idx _ _ _; rfl
  | cons d rest ih =>
    intro elapsed idx hds he H
    have hd : 0 ≤ d := hds d (by simp)
    have hrest : ∀ x ∈ rest, 0 ≤ x := fun x hx => hds x (by simp [hx])
    have hgap : 0 ≤ gapOf gap rest := gapOf_nonneg gap hg rest
    have hT : 0 ≤ natTotalZ gap rest := natTotalZ_nonneg gap hg rest hrest
    have hnt : natTotalZ gap (d :: rest) = d + gapOf gap rest + natTotalZ gap rest := rfl
    have hpos : 0 < maxMs - elapsed := by
      rcases H with H | ⟨H1, H2⟩
      · have : 0 ≤ natTotalZ gap (d :: rest) := natTotalZ_nonneg gap hg _ hds
        omega
      · have hne : (d :: rest) ≠ [] := by simp
        have hL : (d :: rest).getLast? = some ((d :: rest).getLast hne) :=
          List.getLast?_eq_getLast _ hne
        have h1 := H2 _ hL
        have h2 := natTotalZ_ge_last gap hg (d :: rest) hds _ hL
        omega
    have h2 : d + gapOf gap rest ≤ maxMs - elapsed := by
      rcases H with H | ⟨H1, H2⟩ <;> omega
    have H' : natTotalZ gap rest < maxMs - (elapsed + d + gapOf gap rest)
        ∨ (natTotalZ gap rest ≤ maxMs - (elapsed + d + gapOf gap rest)
            ∧ ∀ dN, rest.getLast? = some dN → 0 < dN) := by
      rcases H with H | ⟨H1, H2⟩
      · left; omega
      · right
        refine ⟨by omega, ?_⟩
        intro dN hdN
        apply H2 dN
        cases rest with
        | nil => simp at hdN
        | cons r rs => rw [List.getLast?_cons_cons]; exact hdN
    have hne : ¬ (maxMs - elapsed ≤ 0) := by omega
    have ihh := ih (elapsed + d + gapOf gap rest) (idx + 1) hrest (by omega) H'
    simp only [packAux]
    rw [if_neg hne, if_pos h2, ihh]
    simp [fullSegs, fullDurs]

/-- Total duration of `_concat_trim_to`'s output track. -/
theorem ctt_total (ds : List ℕ) (B g : ℕ) :
    totalLen (_concat_trim_to ds B g).1 = min (B : ℤ) ((natTotalN ds g : ℕ) : ℤ) := by
  have h := packAux_total (g : ℤ) (B : ℤ) (Nat.cast_nonneg g) (ds.map (fun (d : ℕ) => (d : ℤ))) 0 0
    (by
      intro d hd
      obtain ⟨a, ha, rfl⟩ := List.mem_map.mp hd
      exact Nat.cast_nonneg a)
    (Nat.cast_nonneg B)
  rw [_concat_trim_to, h, natTotalZ_cast, sub_zero]

/-- The realized-duration entries (ms) sum to the output track's duration. -/
theorem ctt_sum (ds : List ℕ) (B g : ℕ) :
    (_concat_trim_to ds B g).2.sum = totalLen (_concat_trim_to ds B g).1 :=
  packAux_sum (g : ℤ) (B : ℤ) (ds.map (fun (d : ℕ) => (d : ℤ))) 0 0

/-- One realized-duration entry per emitted clip. -/
theorem ctt_len (ds : List ℕ) (B g : ℕ) :
    (_concat_trim_to ds B g).2.length = clipCount (_concat_trim_to ds B g).1 :=
  packAux_len (g : ℤ) (B : ℤ) (ds.map (fun (d : ℕ) => (d : ℤ))) 0 0

/-- Never more realized-duration entries than input clips. -/
theorem ctt_len_le (ds : List ℕ) (B g : ℕ) :
    (_concat_trim_to ds B g).2.length ≤ ds.length := by
  have h := packAux_len_le (g : ℤ) (B : ℤ) (ds.map (fun (d : ℕ) => (d : ℤ))) 0 0
  rw [List.length_map] at h
  exact h

/-- Zero budget yields an empty timeline and no realized durations. -/
theorem ctt_zero_budget (ds : List ℕ) (g : ℕ) : _concat_trim_to ds 0 g = ([], []) := by
  cases ds with
  | nil => rfl
  | cons d rest => simp [_concat_trim_to, packAux]

theorem sum_map_div_thousand (l : List ℤ) :
    (l.map (fun (d : ℤ) => (d : ℚ) / 1000)).sum = ((l.sum : ℤ) : ℚ) / 1000 := by
  induction l with
  | nil => simp
  | cons x rest ih =>
    rw [List.map_cons, List.sum_cons, ih, List.sum_cons, Int.cast_add]
    ring

/-- C1: for every sequence of clip durations, gap and budget, the total
duration of the audio track produced by `_concat_trim_to` equals
`min(B, sum(d_i) + (N-1)*g)`, and equivalently the realized-duration
entries (seconds) sum, times 1000, equals that minimum. -/
theorem c1_total_duration_eq_min (ds : List ℕ) (B g : ℕ) :
    totalLen (_concat_trim_to ds B g).1 = min (B : ℤ) ((natTotalN ds g : ℕ) : ℤ)
    ∧ (_concat_trim_to ds B g).2.sum = min (B : ℤ) ((natTotalN ds g : ℕ) : ℤ)
    ∧ (realizedDurs ds B g).sum * 1000 = ((min B (natTotalN ds g) : ℕ) : ℚ) := by
  have h1 := ctt_total ds B g
  have h2 := ctt_sum ds B g
  refine ⟨h1, by rw [h2, h1], ?_⟩
  rw [realizedDurs, sum_map_div_thousand, h2, h1]
  have hc : ((min (B : ℤ) ((natTotalN ds g : ℕ) : ℤ) : ℤ) : ℚ)
      = ((min B (natTotalN ds g) : ℕ) : ℚ) := by
    rw [← Nat.cast_min]
    push_cast
    ring
  rw [hc]
  ring

/-- C2 (amended): the total emitted duration is at most the budget `B`, with
equality iff the natural total `sum(d_i)+(N-1)*g` is at least `B` (the
original claim required it to strictly exceed `B`); the realized-duration
list has exactly one entry per emitted clip and never more than `N`
entries. -/
theorem c2_budget_invariant_amended (ds : List ℕ) (B g : ℕ) :
    totalLen (_concat_trim_to ds B g).1 ≤ (B : ℤ)
    ∧ (totalLen (_concat_trim_to ds B g).1 = (B : ℤ) ↔ (B : ℤ) ≤ ((natTotalN ds g : ℕ) : ℤ))
    ∧ (_concat_trim_to ds B g).2.length = clipCount (_concat_trim_to ds B g).1
    ∧ (_concat_trim_to ds B g).2.length ≤ ds.length := by
  have h1 := ctt_total ds B g
  refine ⟨by omega, ⟨by omega, by omega⟩, ctt_len ds B g, ctt_len_le ds B g⟩

/-- C2 counterexample: with a single 100 ms clip and budget 100 ms the
emitted total equals the budget although the natural total does not exceed
the budget, refuting the claimed "equality iff truncation (natural total
exceeded B)". -/
theorem c2_counterexample :
    totalLen (_concat_trim_to [100] 100 120).1 = 100
    ∧ natTotalN [100] 120 = 100
    ∧ ¬ (100 < natTotalN [100] 120) := by
  refine ⟨by decide, by decide, by decide⟩

/-- C2 witness: evaluation at a concrete input. -/
theorem c2_witness :
    totalLen (_concat_trim_to [300, 400] 500 120).1 ≤ (500 : ℤ) :=
  (c2_budget_invariant_amended [300, 400] 500 120).1

/-- C3: the number of realized-duration entries equals the number of clips
at least partially included in the output, and is 0 when the budget is 0. -/
theorem c3_entry_count (ds : List ℕ) (B g : ℕ) :
    (_concat_trim_to ds B g).2.length = clipCount (_concat_trim_to ds B g).1
    ∧ (_concat_trim_to ds 0 g).2.length = 0 := by
  refine ⟨ctt_len ds B g, ?_⟩
  rw [ctt_zero_budget]
  rfl

/-- C4 (amended): for a non-empty clip list and a budget `B` with
`0 < B < d_1`, the packer emits exactly one clip, truncated to duration `B`,
and returns the single realized duration `B/1000` (the original claim also
allowed `B = 0`, where the code emits nothing at all); the empty clip list
is legal and yields an empty timeline. -/
theorem c4_first_clip_truncation_amended :
    (∀ (d₁ : ℕ) (rest : List ℕ) (B g : ℕ), 0 < B → B < d₁ →
      _concat_trim_to (d₁ :: rest) B g = ([Seg.clip 0 (B : ℤ)], [(B : ℤ)])
      ∧ realizedDurs (d₁ :: rest) B g = [(B : ℚ) / 1000])
    ∧ ∀ (B g : ℕ), _concat_trim_to [] B g = ([], []) := by
  constructor
  · intro d₁ rest B g hB hBd
    have hgap : 0 ≤ gapOf (g : ℤ) (rest.map (fun (d : ℕ) => (d : ℤ))) :=
      gapOf_nonneg (g : ℤ) (Nat.cast_nonneg g) _
    have hmain : _concat_trim_to (d₁ :: rest) B g = ([Seg.clip 0 (B : ℤ)], [(B : ℤ)]) := by
      simp only [_concat_trim_to, List.map_cons, packAux]
      rw [if_neg (by omega : ¬ ((B : ℤ) - 0 ≤ 0)),
        if_neg (by omega : ¬ ((d₁ : ℤ) + gapOf (g : ℤ) (rest.map (fun (d : ℕ) => (d : ℤ))) ≤ (B : ℤ) - 0)),
        if_pos (by omega : (B : ℤ) - 0 ≤ (d₁ : ℤ))]
      norm_num
    refine ⟨hmain, ?_⟩
    rw [realizedDurs, hmain]
    simp
  · intro B g
    rfl

/-- C4 counterexample: with `B = 0 < d_1 = 100` the packer emits no clip and
no realized-duration entry, not one truncated clip with entry `B/1000`. -/
theorem c4_counterexample :
    (0 : ℕ) < 100
    ∧ (_concat_trim_to [100] 0 120).2 = ([] : List ℤ)
    ∧ (_concat_trim_to [100] 0 120).2.length ≠ 1 := by
  refine ⟨by decide, by decide, by decide⟩

/-- C4 witness: evaluation at a concrete input. -/
theorem c4_witness :
    (_concat_trim_to [100] 50 120 = ([Seg.clip 0 (50 : ℤ)], [(50 : ℤ)])
      ∧ realizedDurs [100] 50 120 = [(50 : ℚ) / 1000])
    ∧ _concat_trim_to [] 7 9 = ([], []) :=
  ⟨c4_first_clip_truncation_amended.1 100 [] 50 120 (by norm_num) (by norm_num),
    c4_first_clip_truncation_amended.2 7 9⟩

/-- C5 (amended): when the budget strictly exceeds the natural total
`sum(d_i)+(N-1)*g` — or equals/exceeds it and the final clip has positive
duration — every clip and every inter-clip gap is included in full, and the
realized-duration list has exactly `N` entries: `d_i + g` (ms) for every
clip but the last and `d_N` for the last.  (The original claim also covered
`B` exactly equal to the natural total with a zero-length final clip, where
the code stops early and drops trailing entries.) -/
theorem c5_full_inclusion_amended (ds : List ℕ) (B g : ℕ)
    (h : natTotalN ds g < B
      ∨ (natTotalN ds g ≤ B ∧ ∀ dN, ds.getLast? = some dN → 0 < dN)) :
    _concat_trim_to ds B g
      = (fullSegs (g : ℤ) 0 (ds.map (fun (d : ℕ) => (d : ℤ))),
          fullDurs (g : ℤ) (ds.map (fun (d : ℕ) => (d : ℤ))))
    ∧ (_concat_trim_to ds B g).2.length = ds.length := by
  have hcast : ∀ d ∈ ds.map (fun (d : ℕ) => (d : ℤ)), 0 ≤ d := by
    intro d hd
    obtain ⟨a, ha, rfl⟩ := List.mem_map.mp hd
    exact Nat.cast_nonneg a
  have hlast : ∀ dN, (ds.map (fun (d : ℕ) => (d : ℤ))).getLast? = some dN →
      (∀ aN, ds.getLast? = some aN → 0 < aN) → 0 < dN := by
    intro dN hdN hpos
    cases hds : ds.getLast? with
    | none =>
      rw [List.getLast?_map, hds] at hdN
      simp at hdN
    | some aN =>
      rw [List.getLast?_map, hds] at hdN
      simp only [Option.map_some', Option.some_inj] at hdN
      subst hdN
      exact_mod_cast hpos aN hds
  have hnt := natTotalZ_cast g ds
  have hmain : packAux (g : ℤ) (B : ℤ) (ds.map (fun (d : ℕ) => (d : ℤ))) 0 0
      = (fullSegs (g : ℤ) 0 (ds.map (fun (d : ℕ) => (d : ℤ))),
          fullDurs (g : ℤ) (ds.map (fun (d : ℕ) => (d : ℤ)))) := by
    apply packAux_full (g : ℤ) (B : ℤ) (Nat.cast_nonneg g) _ 0 0 hcast (Nat.cast_nonneg B)
    rcases h with h | ⟨h1, h2⟩
    · left
      omega
    · right
      refine ⟨by omega, fun dN hdN => hlast dN hdN h2⟩
  rw [_concat_trim_to, hmain]
  simp [fullDurs_length]

/-- C5 counterexample: with clips `[5, 0]`, gap 120 and budget exactly the
natural total 125, the second (zero-length) clip is dropped: only one
realized-duration entry is returned, not `N = 2`. -/
theorem c5_counterexample :
    natTotalN [5, 0] 120 ≤ 125
    ∧ (_concat_trim_to [5, 0] 125 120).2 = [(125 : ℤ)]
    ∧ (_concat_trim_to [5, 0] 125 120).2.length ≠ 2 := by
  refine ⟨by decide, by decide, by decide⟩

/-- C5 witness: evaluation at a concrete input. -/
theorem c5_witness :
    _concat_trim_to [300, 400] 2000 120
      = (fullSegs ((120 : ℕ) : ℤ) 0 ([300, 400].map (fun (d : ℕ) => (d : ℤ))),
          fullDurs ((120 : ℕ) : ℤ) ([300, 400].map (fun (d : ℕ) => (d : ℤ))))
    ∧ (_concat_trim_to [300, 400] 2000 120).2.length = ([300, 400] : List ℕ).length :=
  c5_full_inclusion_amended [300, 400] 2000 120 (Or.inl (by norm_num [natTotalN]))

/-- C6: a clip with zero natural duration reached before the budget is
exhausted is never skipped: it always yields a realized-duration entry, and
when its trailing gap also fits it consumes exactly zero budget plus that
gap and the loop continues with the remaining clips. -/
theorem c6_zero_duration_clip (gap maxMs : ℤ) (rest : List ℤ) (elapsed : ℤ) (idx : ℕ)
    (hg : 0 ≤ gap) (he : elapsed < maxMs) :
    (packAux gap maxMs ((0 : ℤ) :: rest) elapsed idx).2 ≠ []
    ∧ (elapsed + gapOf gap rest ≤ maxMs →
        packAux gap maxMs ((0 : ℤ) :: rest) elapsed idx
          = (Seg.clip idx 0 ::
                ((if gapOf gap rest ≠ 0 then [Seg.silence (gapOf gap rest)] else [])
                  ++ (packAux gap maxMs rest (elapsed + 0 + gapOf gap rest) (idx + 1)).1),
              (0 + gapOf gap rest) ::
                (packAux gap maxMs rest (elapsed + 0 + gapOf gap rest) (idx + 1)).2)) := by
  have hgap : 0 ≤ gapOf gap rest := gapOf_nonneg gap hg rest
  have hne : ¬ (maxMs - elapsed ≤ 0) := by omega
  by_cases hfit : (0 : ℤ) + gapOf gap rest ≤ maxMs - elapsed
  · constructor
    · simp only [packAux]
      rw [if_neg hne, if_pos hfit]
      simp
    · intro _
      simp only [packAux]
      rw [if_neg hne, if_pos hfit]
  · constructor
    · simp only [packAux]
      rw [if_neg hne, if_neg hfit, if_neg (by omega : ¬ (maxMs - elapsed ≤ (0 : ℤ)))]
      simp
    · intro hc
      exact absurd (by omega : (0 : ℤ) + gapOf gap rest ≤ maxMs - elapsed) hfit

/-- C6 witness: a zero-length clip followed by a 500 ms clip, gap 120 ms,
budget 1000 ms: the zero clip is emitted with its gap and the loop
continues. -/
theorem c6_witness :
    (packAux 120 1000 [(0 : ℤ), 500] 0 0).2 ≠ []
    ∧ packAux 120 1000 [(0 : ℤ), 500] 0 0
        = ([Seg.clip 0 0, Seg.silence 120, Seg.clip 1 500], [(120 : ℤ), 500]) := by
  have h := c6_zero_duration_clip 120 1000 [(500 : ℤ)] 0 0 (by norm_num) (by norm_num)
  refine ⟨h.1, ?_⟩
  rw [h.2 (by decide)]
  decide

/-- C7: for clip durations `[10000, 10000, 10000]` ms, gap 120 ms and budget
25000 ms, the realized-duration list is exactly `[10.12, 10.12, 4.76]`
seconds: clips 1 and 2 full with their gaps, clip 3 truncated to 4760 ms. -/
theorem c7_end_to_end :
    realizedDurs [10000, 10000, 10000] 25000 120 = [10.12, 10.12, 4.76]
    ∧ (_concat_trim_to [10000, 10000, 10000] 25000 120).2 = [10120, 10120, 4760]
    ∧ (_concat_trim_to [10000, 10000, 10000] 25000 120).1
        = [Seg.clip 0 10000, Seg.silence 120, Seg.clip 1 10000, Seg.silence 120,
            Seg.clip 2 4760] := by
  have h : (_concat_trim_to [10000, 10000, 10000] 25000 120).2 = [10120, 10120, 4760] := by
    decide
  refine ⟨?_, h, by decide⟩
  rw [realizedDurs, h]
  norm_num

/-! Audio mastering (`audio_fx.py`, `enhance`).

The external `ffmpeg` invocations are modelled as oracles: `run` maps a
filter chain to the completed process for the filtered encode, `plainProc`
is the completed process of the plain re-encode, and `hasFfmpeg` models
`shutil.which("ffmpeg")`.  The observable result is which command produced
the output file: `.filtered chain` or `.plain`, or the raised error. -/

/-- Model of `subprocess.CompletedProcess`: return code and captured
standard error. -/
structure Proc where
  returncode : ℤ
  stderr : String
deriving DecidableEq

/-- The base EQ/compressor chain `BASE_CHAIN` of audio_fx.py. -/
def BASE_CHAIN : String :=
  "highpass=f=60,lowpass=f=10500,equalizer=f=4000:width_type=h:width=150:g=3,equalizer=f=8000:width_type=h:width=300:g=-2,acompressor=threshold=-18dB:ratio=2:knee=2:attack=15:release=200"

/-- The candidate filter chains `TRY_CHAINS`, tried in order. -/
def TRY_CHAINS : List String :=
  [BASE_CHAIN ++ ",loudnorm=I=-16:TP=-1.5:LRA=11",
    BASE_CHAIN ++ ",dynaudnorm=f=150:g=7",
    BASE_CHAIN ++ ",volume=-1.5dB"]

/-- The `for chain in TRY_CHAINS` loop of `enhance`: returns the first
chain whose ffmpeg run exits 0 (if any) together with the last failing
process (`last_err`). -/
def enhanceChains (run : String → Proc) : List String → Option Proc → Option String × Option Proc
  | [], last => (none, last)
  | c :: rest, last =>
    if (run c).returncode = 0 then (some c, last)
    else enhanceChains run rest (some (run c))

/-- Which command produced the output file of `enhance`. -/
inductive FxOut where
  | filtered (chain : String)
  | plain
deriving DecidableEq

/-- The function `enhance(in_mp3, out_mp3)` from audio_fx.py: raises when ffmpeg is
missing; otherwise tries every chain of `TRY_CHAINS` in order, returning at
the first success; if all fail, runs the plain re-encode and raises (with
the diagnostic stderr attached) only when that also fails. -/
def enhance (hasFfmpeg : Bool) (run : String → Proc) (plainProc : Proc) : Except String FxOut :=
  if hasFfmpeg then
    let r := enhanceChains run TRY_CHAINS none
    match r.1 with
    | some c => .ok (.filtered c)
    | none =>
      if plainProc.returncode = 0 then .ok .plain
      else .error (if plainProc.stderr ≠ "" then plainProc.stderr
        else (match r.2 with | some p => p.stderr | none => ""))
  else .error "ffmpeg not found"

theorem enhanceChains_first (run : String → Proc) :
    ∀ (pre : List String) (c : String) (post : List String) (last : Option Proc),
      (∀ c' ∈ pre, (run c').returncode ≠ 0) → (run c).returncode = 0 →
      (enhanceChains run (pre ++ c :: post) last).1 = some c := by
  intro pre
  induction pre with
  | nil =>
    intro c post last _ hc
    simp [enhanceChains, hc]
  | cons p ps ih =>
    intro c post last hpre hc
    have hp : (run p).returncode ≠ 0 := hpre p (by simp)
    simp only [List.cons_append, enhanceChains, hp, if_neg hp]
    exact ih c post (some (run p)) (fun c' hc' => hpre c' (by simp [hc'])) hc

theorem enhanceChains_none (run : String → Proc) :
    ∀ (l : List String) (last : Option Proc),
      (enhanceChains run l last).1 = none ↔ ∀ c ∈ l, (run c).returncode ≠ 0 := by
  intro l
  induction l with
  | nil => intro last; simp [enhanceChains]
  | cons c rest ih =>
    intro last
    by_cases hc : (run c).returncode = 0
    · constructor
      · intro h
        exfalso
        have hx : (enhanceChains run (c :: rest) last).1 = some c := by
          simp [enhanceChains, hc]
        rw [hx] at h
        simp at h
      · intro h
        exact absurd hc (h c (by simp))
    · have hx : enhanceChains run (c :: rest) last = enhanceChains run rest (some (run c)) := by
        simp [enhanceChains, hc]
      rw [hx, ih (some (run c))]
      constructor
      · intro h x hmem
        rcases List.mem_cons.mp hmem with rfl | hmem'
        · exact hc
        · exact h x hmem'
      · intro h x hmem
        exact h x (by simp [hmem])

/-- C8: with the ffmpeg tool present, `enhance` tries the filter-chain
variants of `TRY_CHAINS` in order and stops at the first that succeeds;
when every variant fails it falls back to the plain re-encode; and it
raises an error if and only if even the plain re-encode fails. -/
theorem c8_enhance_fallback (run : String → Proc) (plainProc : Proc) :
    (∀ (pre : List String) (c : String) (post : List String),
      TRY_CHAINS = pre ++ c :: post → (∀ c' ∈ pre, (run c').returncode ≠ 0) →
      (run c).returncode = 0 → enhance true run plainProc = .ok (.filtered c))
    ∧ ((∀ c ∈ TRY_CHAINS, (run c).returncode ≠ 0) → plainProc.returncode = 0 →
        enhance true run plainProc = .ok .plain)
    ∧ ((enhance true run plainProc).toOption = none ↔
        (∀ c ∈ TRY_CHAINS, (run c).returncode ≠ 0) ∧ plainProc.returncode ≠ 0) := by
  refine ⟨?_, ?_, ?_⟩
  · intro pre c post hsplit hpre hc
    have h := enhanceChains_first run pre c post none hpre hc
    rw [← hsplit] at h
    simp only [enhance, if_pos]
    rw [h]
  · intro hall hplain
    have h := (enhanceChains_none run TRY_CHAINS none).mpr hall
    simp only [enhance, if_pos]
    rw [h, if_pos hplain]
  · constructor
    · intro h
      simp only [enhance, if_pos] at h
      cases hr : (enhanceChains run TRY_CHAINS none).1 with
      | some c =>
        rw [hr] at h
        simp [Except.toOption] at h
      | none =>
        rw [hr] at h
        refine ⟨(enhanceChains_none run TRY_CHAINS none).mp hr, ?_⟩
        intro hplain
        rw [if_pos hplain] at h
        simp [Except.toOption] at h
    · intro ⟨hall, hplain⟩
      have h := (enhanceChains_none run TRY_CHAINS none).mpr hall
      simp only [enhance, if_pos]
      rw [h, if_neg hplain]
      rfl

/-- A concrete ffmpeg oracle for the C8 witness: the first chain fails, the
second (dynaudnorm) chain succeeds. -/
def c8run : String → Proc :=
  fun c => if c = BASE_CHAIN ++ ",dynaudnorm=f=150:g=7" then ⟨0, ""⟩ else ⟨1, "boom"⟩

set_option maxRecDepth 8192 in
/-- C8 witness: with `c8run`, enhance returns the second chain's output. -/
theorem c8_witness :
    enhance true c8run ⟨0, ""⟩ = .ok (.filtered (BASE_CHAIN ++ ",dynaudnorm=f=150:g=7")) :=
  (c8_enhance_fallback c8run ⟨0, ""⟩).1
    [BASE_CHAIN ++ ",loudnorm=I=-16:TP=-1.5:LRA=11"]
    (BASE_CHAIN ++ ",dynaudnorm=f=150:g=7")
    [BASE_CHAIN ++ ",volume=-1.5dB"]
    (by rfl)
    (by
      intro c' hc'
      simp only [List.mem_singleton] at hc'
      subst hc'
      decide)
    (by decide)

/-! Python string primitives.

The sources use Python `str` methods and `re` substitutions.  These are
re-implemented here over `List Char`.  `pyWs` covers the whitespace
characters relevant to `\s` / `str.strip` (space, tab, newline, carriage
return, vertical tab, form feed, no-break space, ideographic space). -/

def pyWs (c : Char) : Bool :=
  c == ' ' || c == '\t' || c == '\n' || c == '\r' || c == Char.ofNat 11 ||
    c == Char.ofNat 12 || c == Char.ofNat 160 || c == '　'

/-- The class `[A-Za-z]` of the sources' regexes. -/
def isLatin (c : Char) : Bool :=
  ('A' ≤ c && c ≤ 'Z') || ('a' ≤ c && c ≤ 'z')

/-- Drop leading whitespace (`lstrip`). -/
def ltrim : List Char → List Char
  | [] => []
  | c :: rest => if pyWs c then ltrim rest else c :: rest

/-- Drop trailing whitespace (`rstrip`). -/
def rtrim (l : List Char) : List Char := (ltrim l.reverse).reverse

/-- Python `str.strip()`. -/
def pyStrip (l : List Char) : List Char := rtrim (ltrim l)

/-- Loop of `re.sub(r"\s+", " ", ...)`: every maximal whitespace run
becomes a single space.  The flag records whether the previous character
was inside a run. -/
def collapseAux : Bool → List Char → List Char
  | _, [] => []
  | prevWs, c :: rest =>
    if pyWs c then
      (if prevWs then collapseAux true rest else ' ' :: collapseAux true rest)
    else c :: collapseAux false rest

/-- Python `re.sub(r"\s+", " ", ...)`. -/
def collapseWs (l : List Char) : List Char := collapseAux false l

/-- Python `re.sub(r"^[A-Za-z]+:\s*", "", text)`: strip one leading speaker label. -/
def stripLabel (l : List Char) : List Char :=
  match l.takeWhile isLatin, l.dropWhile isLatin with
  | _ :: _, ':' :: r => r.dropWhile pyWs
  | _, _ => l

/-- The symbol class `[#"'※＊*~`]` removed by `_clean_for_tts` for
Japanese (apostrophe and backtick written by code point). -/
def symJa (c : Char) : Bool :=
  c == '#' || c == '"' || c == Char.ofNat 39 || c == '※' || c == '＊' ||
    c == '*' || c == '~' || c == Char.ofNat 96

/-- The text produced by `_clean_for_tts` before the final
`return t or "。"`: label strip, whitespace collapse + strip, and for
Japanese the Latin-letter and symbol removal followed by another
collapse + strip. -/
def cleanCore (text lang : String) : List Char :=
  if lang = "ja" then
    pyStrip (collapseWs
      (((pyStrip (collapseWs (stripLabel text.toList))).filter
          (fun c => !(isLatin c))).filter (fun c => !(symJa c))))
  else pyStrip (collapseWs (stripLabel text.toList))

/-- The function `_clean_for_tts(text, lang)` from tts_openai.py. -/
def _clean_for_tts (text lang : String) : String :=
  let t := cleanCore text lang
  if t.isEmpty then "。" else t.asString

/-- Python `s.endswith(c)` for a one-character suffix. -/
def endsWithL (l : List Char) (c : Char) : Bool :=
  match l.getLast? with
  | some x => x == c
  | none => false

/-- Python `re.sub(r"[！!？?]+$", "", s)`: drop the maximal trailing run of the
given characters. -/
def rstripSet (set : List Char) (l : List Char) : List Char :=
  (l.reverse.dropWhile (fun c => set.any (fun x => x == c))).reverse

/-- Python `re.sub(r"[!?.]+$", ".", s)`: replace a non-empty maximal trailing
run of `!?.` with a single dot, otherwise leave the string unchanged. -/
def subTrailPunct (l : List Char) : List Char :=
  let r := l.reverse.dropWhile (fun c => c == '!' || c == '?' || c == '.')
  if r.length = l.length then l else r.reverse ++ ['.']

/-- Python `.lower()` (the style tags are ASCII). -/
def lowerL (l : List Char) : List Char := l.map Char.toLower

/-- The function `_apply_style(text, lang, style)` from tts_openai.py. -/
def _apply_style (text lang style : String) : String :=
  let s := pyStrip text.toList
  let st := lowerL (if style = "" then "neutral" else style).toList
  if st = "energetic".toList then
    if lang = "ja" then
      let s1 := s.map (fun c => if c = '。' then '！' else c)
      if !(endsWithL s1 '！' || endsWithL s1 '？') then (s1 ++ ['！']).asString else s1.asString
    else
      if !(endsWithL s '!' || endsWithL s '?') then (s ++ ['!']).asString else s.asString
  else if st = "calm".toList then
    if lang = "ja" then
      let s1 := (s.map (fun c => if c = '！' then '。' else c)).map
        (fun c => if c = '!' then '。' else c)
      if !(endsWithL s1 '。') then (s1 ++ ['。']).asString else s1.asString
    else
      let s1 := s.map (fun c => if c = '!' then '.' else c)
      if !(endsWithL s1 '.') then (s1 ++ ['.']).asString else s1.asString
  else if st = "serious".toList then
    if lang = "ja" then
      let s1 := rstripSet ['！', '!', '？', '?'] s
      if !(endsWithL s1 '。') then (s1 ++ ['。']).asString else s1.asString
    else
      let s1 := subTrailPunct s
      if !(endsWithL s1 '.') then (s1 ++ ['.']).asString else s1.asString
  else s.asString

/-- The exact text `speak` hands to the speech-synthesis request:
`styled_text = _apply_style(_clean_for_tts(text, lang), lang, style)`. -/
def speakInput (lang text style : String) : String :=
  _apply_style (_clean_for_tts text lang) lang style

theorem ltrim_length_le (l : List Char) : (ltrim l).length ≤ l.length := by
  induction l with
  | nil => simp [ltrim]
  | cons c rest ih =>
    by_cases h : pyWs c = true
    · simp only [ltrim, h, if_true]
      simp only [List.length_cons]
      omega
    · have h' : pyWs c = false := by
        cases hc : pyWs c
        · rfl
        · exact absurd hc h
      simp [ltrim, h']

theorem ltrim_idem (l : List Char) : ltrim (ltrim l) = ltrim l := by
  induction l with
  | nil => rfl
  | cons c rest ih =>
    by_cases h : pyWs c = true
    · simp only [ltrim, h, if_true]
      exact ih
    · have h' : pyWs c = false := by
        cases hc : pyWs c
        · rfl
        · exact absurd hc h
      simp [ltrim, h']

theorem ltrim_drop (l : List Char) : ∃ n, ltrim l = l.drop n := by
  induction l with
  | nil => exact ⟨0, rfl⟩
  | cons c rest ih =>
    by_cases h : pyWs c = true
    · obtain ⟨n, hn⟩ := ih
      refine ⟨n + 1, ?_⟩
      simpa [ltrim, h] using hn
    · have h' : pyWs c = false := by
        cases hc : pyWs c
        · rfl
        · exact absurd hc h
      exact ⟨0, by simp [ltrim, h']⟩

theorem rtrim_append (l : List Char) : ∃ suf, l = rtrim l ++ suf := by
  obtain ⟨m, hm⟩ := ltrim_drop l.reverse
  have h1 : rtrim l = (l.reverse.drop m).reverse := by rw [rtrim, hm]
  refine ⟨(l.reverse.take m).reverse, ?_⟩
  have h2 : rtrim l ++ (l.reverse.take m).reverse = l := by
    rw [h1, ← List.reverse_append, List.take_append_drop, List.reverse_reverse]
  exact h2.symm

theorem rtrim_idem (l : List Char) : rtrim (rtrim l) = rtrim l := by
  show (ltrim ((ltrim l.reverse).reverse).reverse).reverse = (ltrim l.reverse).reverse
  rw [List.reverse_reverse, ltrim_idem]

theorem ltrim_rtrim (l : List Char) (h : ltrim l = l) : ltrim (rtrim l) = rtrim l := by
  cases hr : rtrim l with
  | nil => rfl
  | cons c t =>
    obtain ⟨suf, hsuf⟩ := rtrim_append l
    rw [hr] at hsuf
    have hws : pyWs c = false := by
      cases hcc : pyWs c
      · rfl
      · exfalso
        have h1 : ltrim l = ltrim (t ++ suf) := by
          rw [hsuf]
          simp [ltrim, hcc]
        rw [h] at h1
        have h2 := ltrim_length_le (t ++ suf)
        have h3 : l.length = (ltrim (t ++ suf)).length := congrArg List.length h1
        rw [hsuf] at h3
        simp only [List.cons_append, List.length_cons, List.length_append] at h3 h2
        omega
    simp [ltrim, hws]

theorem pyStrip_idem (l : List Char) : pyStrip (pyStrip l) = pyStrip l := by
  show rtrim (ltrim (rtrim (ltrim l))) = rtrim (ltrim l)
  rw [ltrim_rtrim (ltrim l) (ltrim_idem l), rtrim_idem]

theorem asString_ne_empty {l : List Char} (h : l ≠ []) : l.asString ≠ "" :=
  fun hc => h (congrArg String.data hc)

theorem ite_append_ne_empty (b : Bool) (l : List Char) (ch : Char) (h : b = true → l ≠ []) :
    (if !b then (l ++ [ch]).asString else l.asString) ≠ "" := by
  cases b
  · exact asString_ne_empty (by simp)
  · exact asString_ne_empty (h rfl)

theorem ne_nil_of_not_not_endsWith1 {l : List Char} {a : Char}
    (h : ¬ ((!(endsWithL l a)) = true)) : l ≠ [] := by
  intro he
  subst he
  exact h rfl

theorem ne_nil_of_not_not_endsWith2 {l : List Char} {a b : Char}
    (h : ¬ ((!(endsWithL l a || endsWithL l b)) = true)) : l ≠ [] := by
  intro he
  subst he
  exact h rfl

theorem cleanCore_strip (text lang : String) :
    pyStrip (cleanCore text lang) = cleanCore text lang := by
  unfold cleanCore
  split
  · exact pyStrip_idem _
  · exact pyStrip_idem _

theorem clean_toList (text lang : String) :
    pyStrip ((_clean_for_tts text lang).toList) = (_clean_for_tts text lang).toList
    ∧ (_clean_for_tts text lang).toList ≠ [] := by
  simp only [_clean_for_tts]
  by_cases h : (cleanCore text lang).isEmpty
  · rw [if_pos h]
    exact ⟨by decide, by decide⟩
  · rw [if_neg h]
    have ht : ((cleanCore text lang).asString).toList = cleanCore text lang := rfl
    rw [ht]
    refine ⟨cleanCore_strip text lang, ?_⟩
    intro hne
    rw [hne] at h
    exact h rfl

/-- C10: for every input text and language, `_clean_for_tts` returns a
non-empty string — when stripping leaves nothing it returns the
placeholder `"。"` — and the styled text actually handed to the speech
synthesizer by `speak` is likewise never empty. -/
theorem c10_tts_nonempty (text lang style : String) :
    _clean_for_tts text lang ≠ ""
    ∧ (cleanCore text lang = [] → _clean_for_tts text lang = "。")
    ∧ speakInput lang text style ≠ "" := by
  have hc := clean_toList text lang
  refine ⟨?_, ?_, ?_⟩
  · intro h0
    apply hc.2
    rw [h0]
    rfl
  · intro h0
    simp only [_clean_for_tts]
    rw [h0]
    rfl
  · simp only [speakInput, _apply_style]
    rw [hc.1]
    split_ifs
    all_goals apply asString_ne_empty
    all_goals
      first
        | exact hc.2
        | (rename_i hend
           exact ne_nil_of_not_not_endsWith2 hend)
        | (rename_i hend
           exact ne_nil_of_not_not_endsWith1 hend)
        | simp

/-- C10 witness: for the all-stripped Japanese input `"Alice: ABC"` the
sanitizer returns the placeholder and the synthesized text is non-empty. -/
theorem c10_witness :
    _clean_for_tts "Alice: ABC" "ja" ≠ ""
    ∧ _clean_for_tts "Alice: ABC" "ja" = "。"
    ∧ speakInput "ja" "Alice: ABC" "neutral" ≠ "" := by
  have h := c10_tts_nonempty "Alice: ABC" "ja" "neutral"
  exact ⟨h.1, h.2.1 (by decide), h.2.2⟩
